import Mathlib

/-!
# Verification of the Cameleer orchestration engine core

This file gives a shallow embedding, in Lean 4, of the parts of the
Cameleer task-orchestration engine that the checked claims are about:

* queue selection (`Cameleer._selectBestMatchingQueue`),
* admission of schedule firings (`Cameleer._enqueueTask` and the
  premature-interruption window of `Cameleer._shouldInterruptJob`),
* job execution (`CameleerJob._attempt`, its `results`/`result` getters,
  and `RunAttempt.previousResult`),
* the per-step error configuration
  (`ResolvedConfig._createFunctionalTaskErrorFromDef`,
  `ResolvedConfig.resolveErrorConfig`),
* the run-attempt error path (`RunAttempt._runErrored`,
  `RunAttempt._runErroredBySchedule`),
* task loading (`Cameleer.loadTasks`) and
* the debounced static-task-context store
  (the save-timer callback installed in `Cameleer.loadTasks` together
  with `createObservableValue`).

The repository carries several revisions of its core modules; the
embedding follows the most recent revision of each (the one the other
recent modules import and whose features — interruption windows,
`maxNumFails`, deferral of schedule drain — the rest of the code uses).

JavaScript numbers that take part in comparisons and in one division
(queue `load`, `capabilities`, task `cost`) are modelled as rationals;
every concrete input used below is exactly representable as a binary64
float and all operations on those inputs are exact, so the rational
model agrees with the float semantics on everything proved here.
-/

namespace Cameleer

/-! ## Queues and queue selection (`Cameleer._selectBestMatchingQueue`)

A `CameleerQueue` wraps either a parallel queue (`isParallel = true`,
`parallelism` irrelevant here) or a cost queue carrying a
`capabilities` budget and an `allowExclusiveJobs` flag.  The engine
keeps them in a name-keyed object; `_queuesArr` enumerates them in
configuration (insertion) order. -/

structure CQueue where
  name : String
  isParallel : Bool
  isDefault : Bool
  allowExclusiveJobs : Bool
  capabilities : ℚ
  load : ℚ
  deriving Repr, DecidableEq

/-- The task-side inputs of `_selectBestMatchingQueue`: the relevant
fields of a `ResolvedConfig`.  `cost = some c` corresponds to
`Resolve.isTypeOf(config.cost, Number)` being true (`isCost`);
`cost = none` is the `null` cost. -/
structure SelConfig where
  name : String
  cost : Option ℚ
  queues : List String
  deriving Repr, DecidableEq

/-- The appropriateness filter of `_selectBestMatchingQueue`:
a cost task fits a non-parallel queue when `config.cost <
cq.queue.capabilities` (strict) or the queue allows exclusive jobs;
a non-cost task fits exactly the parallel queues. -/
def isAppropriate (cost : Option ℚ) (q : CQueue) : Bool :=
  match cost with
  | some c => !q.isParallel && (decide (c < q.capabilities) || q.allowExclusiveJobs)
  | none => q.isParallel

/-- The spec's wording of the same filter, for comparison: it asks for
`cost <= capabilities` where the code uses strict `<`. -/
def specAppropriate (cost : Option ℚ) (q : CQueue) : Bool :=
  match cost with
  | some c => !q.isParallel && (decide (c ≤ q.capabilities) || q.allowExclusiveJobs)
  | none => q.isParallel

/-- Favorability of a cost queue inside the sort comparator:
`capabilities / (load === 0 ? 1 : load)`. -/
def favorability (q : CQueue) : ℚ :=
  q.capabilities / (if q.load = 0 then 1 else q.load)

/-- The comparator passed to `Array.prototype.sort` in the cost branch:
`f1 < f2 ? 1 : -1` (order by favorability descending, never 0). -/
def cmpCost (a b : CQueue) : Int :=
  if favorability a < favorability b then 1 else -1

/-- The comparator of the parallel branch:
`q1.load < q2.load ? -1 : 1` (order by load ascending, never 0). -/
def cmpParallel (a b : CQueue) : Int :=
  if a.load < b.load then -1 else 1

/-- Insert `x` into a previously sorted list at the first position whose
element `y` satisfies `cmp x y < 0`.  This is how the JavaScript
runtime's `Array.prototype.sort` (TimSort with binary-insertion runs;
every candidate list here is far below the 22-element run threshold)
places elements: each element is inserted into the sorted prefix at the
first index where comparing the element against the resident yields a
negative value.  For the two comparators above, whose sort keys are
numeric, the binary search coincides with this linear rule. -/
def insertJs {α : Type} (cmp : α → α → Int) (x : α) : List α → List α
  | [] => [x]
  | y :: ys => if cmp x y < 0 then x :: y :: ys else y :: insertJs cmp x ys

/-- `Array.prototype.sort(cmp)`, modelled as successive `insertJs`. -/
def sortJs {α : Type} (cmp : α → α → Int) (l : List α) : List α :=
  l.foldl (fun acc x => insertJs cmp x acc) []

/-- The `queuesAllowedByTask` computation: keep the names in the task's
`queues` list that name an appropriate queue and look each up in the
engine's queue map (names are unique: the map is keyed by name). -/
def allowedQueues (queuesArr : List CQueue) (cfg : SelConfig) : List CQueue :=
  let appropriateQueues := queuesArr.filter (isAppropriate cfg.cost)
  (cfg.queues.filter
      (fun qName => (appropriateQueues.filter (fun cq => cq.name = qName)).length > 0)).filterMap
    (fun qName => queuesArr.find? (fun cq => cq.name = qName))

/-- `Cameleer._selectBestMatchingQueue`, embedded: filter appropriate
queues, prefer the default queue when the task demands none, otherwise
restrict to the demanded queues and sort with the branch's comparator,
picking the head. -/
def selectBestMatchingQueue (queuesArr : List CQueue) (cfg : SelConfig) :
    Except String CQueue :=
  match cfg.queues, (queuesArr.filter (isAppropriate cfg.cost)).filter (·.isDefault) with
  | [], dq :: _ => .ok dq
  | _, _ =>
    if (queuesArr.filter (isAppropriate cfg.cost)).isEmpty then
      .error "There are no appropriate Queues available for the task."
    else
      match allowedQueues queuesArr cfg, cfg.cost with
      | [], _ => .error "None of the Queues as demanded by the task is available."
      | q :: qs, some _ =>
        match sortJs cmpCost (q :: qs) with
        | [] => .error "unreachable"
        | r :: _ => .ok r
      | q :: qs, none =>
        match sortJs cmpParallel (q :: qs) with
        | [] => .error "unreachable"
        | r :: _ => .ok r

/-! ## Per-step error configuration
(`ResolvedConfig._createFunctionalTaskErrorFromDef` and
`ResolvedConfig.resolveErrorConfig`)

A recovery `Schedule` object is identified by a number.  The
`maxNumFails` slot of a raw `canFail` record may hold either a number
or a callable producing one; the callable is identified by a number and
interpreted through an environment when resolved. -/

/-- `maxNumFails` as stored in a (raw or normalized) `canFail` slot:
either a plain number or a callable (identified by `fid`). -/
inductive MNFVal where
  | num (n : ℕ)
  | func (fid : ℕ)
  deriving Repr, DecidableEq

/-- `Resolve.optionalToValue(default, raw, Number)` applied to a
`maxNumFails` slot.  Modelled from the spec: the `Resolve` helper lives
in the orchestration-tools library (the repository's `tools/Resolve.js`
is referenced but not present); per the spec's resolution rules a plain
number is returned as is and a callable is invoked (here through the
environment `env`) and its numeric result returned. -/
def resolveMNF (env : ℕ → ℕ) : MNFVal → ℕ
  | .num n => n
  | .func fid => env fid

/-- The strict-equality test `numSubSequentFails === maxNumFails` of the
recovery loop: a number and a function are never `===`-equal. -/
def mnfStrictEq (k : ℕ) : MNFVal → Bool
  | .num n => k == n
  | .func _ => false

/-- The engine defaults for functional-task error handling
(`defaults.tasks` of the Cameleer configuration; `_configErrOrg` inside
`ResolvedConfig`).  All four fields are present. -/
structure ErrDefaults where
  continueOnFinalFail : Bool
  schedule : ℕ
  skip : Bool
  maxNumFails : MNFVal
  deriving Repr, DecidableEq

/-- The engine's shipped default configuration
(`createDefaultCameleerConfig().defaults.tasks`): `continueOnFinalFail
= false`, a schedule callable producing a `RetryInterval` (id 0 here),
`skip = false`, `maxNumFails = Number.MAX_SAFE_INTEGER`. -/
def engineErrDefaults : ErrDefaults :=
  { continueOnFinalFail := false
    schedule := 0
    skip := false
    maxNumFails := .num (2 ^ 53 - 1) }

/-- A raw `canFail` record as written in a step definition; `none`
means the key is absent (`hasOwnProperty` false). -/
structure CanFailRec where
  continueOnFinalFail : Option Bool
  schedule : Option ℕ
  skip : Option Bool
  maxNumFails : Option MNFVal
  deriving Repr, DecidableEq

/-- The `canFail` option of a step definition: absent, a boolean
shorthand, or a (partial) record. -/
inductive CanFailOpt where
  | absent
  | flag (b : Bool)
  | record (r : CanFailRec)
  deriving Repr, DecidableEq

/-- The normalized error configuration produced by
`_createFunctionalTaskErrorFromDef`.  `schedule` is an `Option`
because one branch of the source can write the *absent*
`def.canFail.schedule` (the JavaScript value `undefined`) into it. -/
structure NormErrConf where
  continueOnFinalFail : Bool
  schedule : Option ℕ
  skip : Bool
  maxNumFails : MNFVal
  deriving Repr, DecidableEq

/-- `ResolvedConfig._createFunctionalTaskErrorFromDef`, embedded
statement by statement.  `obj` starts as the defaults.  A boolean
`canFail` sets `continueOnFinalFail` (and zeroes `maxNumFails` when
`false`); merging a boolean with `mergeObjects` copies no keys.  A
record `canFail` copies `continueOnFinalFail` and `schedule` when
present, then — under the `skip` key — assigns
`obj.schedule = def.canFail.schedule` (the source assigns the
`schedule` member here, not `skip`), then copies `maxNumFails`;
finally `mergeObjects({}, obj, def.canFail)` overrides every key
present in the record. -/
def createFunctionalTaskErrorFromDef (dflt : ErrDefaults) :
    CanFailOpt → NormErrConf
  | .absent =>
    { continueOnFinalFail := dflt.continueOnFinalFail
      schedule := some dflt.schedule
      skip := dflt.skip
      maxNumFails := dflt.maxNumFails }
  | .flag b =>
    { continueOnFinalFail := b
      schedule := some dflt.schedule
      skip := dflt.skip
      maxNumFails := if b then dflt.maxNumFails else .num 0 }
  | .record r =>
    let obj : NormErrConf :=
      { continueOnFinalFail := dflt.continueOnFinalFail
        schedule := some dflt.schedule
        skip := dflt.skip
        maxNumFails := dflt.maxNumFails }
    let obj := match r.continueOnFinalFail with
      | some b => { obj with continueOnFinalFail := b }
      | none => obj
    let obj := match r.schedule with
      | some s => { obj with schedule := some s }
      | none => obj
    let obj := if r.skip.isSome then { obj with schedule := r.schedule } else obj
    let obj := match r.maxNumFails with
      | some m => { obj with maxNumFails := m }
      | none => obj
    { continueOnFinalFail := r.continueOnFinalFail.getD obj.continueOnFinalFail
      schedule := match r.schedule with
        | some s => some s
        | none => obj.schedule
      skip := r.skip.getD obj.skip
      maxNumFails := r.maxNumFails.getD obj.maxNumFails }

/-- The record the claim (and the spec's resolution rules) prescribe
for a partial `canFail`: every given field keeps its value, every
absent field takes the engine default. -/
def specMergedErrConf (dflt : ErrDefaults) (r : CanFailRec) : NormErrConf :=
  { continueOnFinalFail := r.continueOnFinalFail.getD dflt.continueOnFinalFail
    schedule := some (r.schedule.getD dflt.schedule)
    skip := r.skip.getD dflt.skip
    maxNumFails := r.maxNumFails.getD dflt.maxNumFails }

/-- The error configurations handed to `RunAttempt._runErrored` by
`ResolvedConfig.resolveErrorConfig`: all slots materialized. -/
structure ResolvedErrConf where
  schedule : ℕ
  maxNumFails : ℕ
  skip : Bool
  continueOnFinalFail : Bool
  deriving Repr, DecidableEq

/-- `ResolvedConfig.resolveErrorConfig`, embedded.  `schedule` goes
through `Resolve.toValue(…, Schedule)`, which rejects `undefined`
(modelled from the spec's resolution rules, the helper being library
code); `maxNumFails` resolves a callable through `env`; the boolean
slots of the normalized configuration are already plain values here. -/
def resolveErrorConfig (env : ℕ → ℕ) (c : NormErrConf) :
    Except String ResolvedErrConf :=
  match c.schedule with
  | none => .error "Cannot resolve the value to a Schedule."
  | some s =>
    .ok { schedule := s
          maxNumFails := resolveMNF env c.maxNumFails
          skip := c.skip
          continueOnFinalFail := c.continueOnFinalFail }

/-! ## Results, attempt errors and job failures
(`Result`, `AttemptError`, `JobFailError`) -/

/-- `Result`: either `Result.fromValue(v)` or `Result.fromError(e)`
(the latter carries the error and answers `isError` with true). -/
inductive CamResult (α ε : Type) where
  | ok (value : α)
  | err (error : ε)
  deriving Repr, DecidableEq

/-- The `Result.isError` getter. -/
def CamResult.isError {α ε : Type} : CamResult α ε → Bool
  | .ok _ => false
  | .err _ => true

/-- The three `AttemptError` kinds. -/
inductive AttemptKind where
  | finalFail
  | resolveArgs
  | resolveErrConf
  deriving Repr, DecidableEq

/-- `AttemptError`: a kind together with the wrapped original error. -/
structure AttemptErr (ε : Type) where
  errType : AttemptKind
  wrappedErr : ε
  deriving Repr, DecidableEq

/-- `JobFailError`: wraps the `AttemptError` a step raised
(`previousError`). -/
structure JobFailErr (ε : Type) where
  previousError : AttemptErr ε
  deriving Repr, DecidableEq

/-! ## The run-attempt error path (`RunAttempt._runErrored`) -/

/-- `RunAttempt._runErrored`, embedded.  `err` is the value the regular
attempt threw; `recovery` is the outcome `_runErroredBySchedule` would
deliver if entered (it is only consulted past the two shortcuts).
Skip: the error becomes the step's `Result`.  Zero budget: raise
`finalFail` wrapping the original `err`.  Otherwise: a failed recovery
either becomes an error `Result` (`continueOnFinalFail`) or raises
`finalFail` wrapping the recovery error. -/
def runErrored {α ε : Type} (rc : ResolvedErrConf) (err : ε)
    (recovery : Except ε (CamResult α ε)) :
    Except (AttemptErr ε) (CamResult α ε) :=
  if rc.skip then
    .ok (.err err)
  else if rc.maxNumFails = 0 then
    .error { errType := .finalFail, wrappedErr := err }
  else
    match recovery with
    | .ok r => .ok r
    | .error e =>
      if rc.continueOnFinalFail then
        .ok (.err e)
      else
        .error { errType := .finalFail, wrappedErr := e }

/-! ## The recovery loop (`RunAttempt._runErroredBySchedule`)

The loop subscribes to the recovery schedule; each firing invokes the
step body once (a firing arriving while an attempt is outstanding is
dropped — the events of a sequential trace below arrive between
attempts, so that guard never triggers here).  After a failed attempt
the counter `numSubSequentFails` is incremented and compared with
`===` against `this.conf.canFail.maxNumFails` — the slot of the
*normalized* step configuration, which still holds a callable when the
step definition gave one, not the number `resolveErrorConfig`
produced. -/

/-- Events delivered by the recovery schedule's observable. -/
inductive SchedEvt where
  | fire
  | error
  | complete
  deriving Repr, DecidableEq

/-- Terminal status of the recovery loop. -/
inductive RecOutcome where
  | pending
  | success
  | budgetReached
  | schedErrored
  | schedDrained
  deriving Repr, DecidableEq

/-- Loop state: number of step-body invocations made by the loop, the
`numSubSequentFails` counter, and the settled outcome, if any. -/
structure RecSt where
  invocations : ℕ
  fails : ℕ
  outcome : RecOutcome
  deriving Repr, DecidableEq

/-- One observable event processed by `_runErroredBySchedule`.  `mnf`
is the raw `conf.canFail.maxNumFails` slot used in the `===` budget
test; `body k` tells whether the `k`-th invocation of the step body
succeeds. -/
def recoveryStep (mnf : MNFVal) (body : ℕ → Bool) (s : RecSt) (e : SchedEvt) :
    RecSt :=
  if s.outcome ≠ .pending then s
  else
    match e with
    | .fire =>
      if body s.invocations then
        { s with invocations := s.invocations + 1, outcome := .success }
      else
        let fails := s.fails + 1
        if mnfStrictEq fails mnf then
          { invocations := s.invocations + 1, fails := fails,
            outcome := .budgetReached }
        else
          { s with invocations := s.invocations + 1, fails := fails }
    | .error => { s with outcome := .schedErrored }
    | .complete => { s with outcome := .schedDrained }

/-- `RunAttempt._runErroredBySchedule` over a sequential trace of
schedule events, starting from a fresh subscription. -/
def runErroredBySchedule (mnf : MNFVal) (body : ℕ → Bool)
    (evts : List SchedEvt) : RecSt :=
  evts.foldl (recoveryStep mnf body) { invocations := 0, fails := 0, outcome := .pending }

/-! ## Job execution (`CameleerJob._attempt`) -/

/-- `CameleerJob._attempt`, embedded over the per-step outcomes of
`RunAttempt.run()`: each step either returns a `Result` (pushed onto
`_results`) or throws an `AttemptError` (wrapped into a `JobFailError`,
ending the job).  Returns the collected `results`, the zero-based
indices of the steps that were executed (in order), and the failure,
if any.  `i` is the index of the first step of `outcomes`. -/
def jobAttemptGo {α ε : Type} (i : ℕ) :
    List (Except (AttemptErr ε) (CamResult α ε)) →
    List (CamResult α ε) × List ℕ × Option (JobFailErr ε)
  | [] => ([], [], none)
  | .ok r :: rest =>
    let (rs, ex, f) := jobAttemptGo (i + 1) rest
    (r :: rs, i :: ex, f)
  | .error e :: _ => ([], [i], some { previousError := e })

/-- `CameleerJob._attempt` on a job whose steps' run attempts would
produce `outcomes` in order. -/
def jobAttempt {α ε : Type}
    (outcomes : List (Except (AttemptErr ε) (CamResult α ε))) :
    List (CamResult α ε) × List ℕ × Option (JobFailErr ε) :=
  jobAttemptGo 0 outcomes

/-! ## Admission of schedule firings (`Cameleer._enqueueTask`)

`_enqueueTask` is an `async` method; distinct schedule firings run it
concurrently.  For a task whose resolved `allowMultiple` is false the
method first checks `_isTaskEnqueuedOrRunning` (the task appears in
some queue's backlog or among its current jobs), then creates the job
and opens the premature-interruption window
(`_shouldInterruptJob` registers the job in `_interruptableJobs` and
suspends), and only after the window resolves uninterrupted submits the
job with `queue.addJob(job)`.  The suspension makes the check, the
window and the submission separate atomic steps that firings of the
same task can interleave.  Tasks are numbers; every modelled task has
resolved `allowMultiple = false` (a true `allowMultiple` never takes
the guard and is outside the claim). -/

/-- Engine state restricted to what admission observes: jobs pending in
an interruption window (`_interruptableJobs`), jobs in some queue's
backlog, and jobs currently running. -/
structure AdmSt where
  pending : List ℕ
  backlog : List ℕ
  running : List ℕ
  deriving Repr, DecidableEq

/-- `Cameleer._isTaskEnqueuedOrRunning`: the task has a job in some
backlog or among the current jobs of some queue.  Windowed jobs are
invisible to it. -/
def enqueuedOrRunning (s : AdmSt) (t : ℕ) : Bool :=
  decide (t ∈ s.backlog) || decide (t ∈ s.running)

/-- Atomic steps of the admission interleaving.  `check t` is the
`allowMultiple` guard of `_enqueueTask` followed (on success) by job
creation and entry into the interruption window; `submit t` is the
uninterrupted window expiring followed by `addJob`; `interrupt t` is an
external `interruptJob` cancelling the windowed job; `start`/`finish`
are the queue primitive moving a job from backlog to its workers and
completing it. -/
inductive AdmEvt where
  | check (t : ℕ)
  | submit (t : ℕ)
  | interrupt (t : ℕ)
  | start (t : ℕ)
  | finish (t : ℕ)
  deriving Repr, DecidableEq

/-- One atomic admission step. -/
def admStep (s : AdmSt) : AdmEvt → AdmSt
  | .check t =>
    if enqueuedOrRunning s t then s
    else { s with pending := t :: s.pending }
  | .submit t =>
    if t ∈ s.pending then
      { s with pending := s.pending.erase t, backlog := t :: s.backlog }
    else s
  | .interrupt t => { s with pending := s.pending.erase t }
  | .start t =>
    if t ∈ s.backlog then
      { s with backlog := s.backlog.erase t, running := t :: s.running }
    else s
  | .finish t => { s with running := s.running.erase t }

/-- Run a trace of admission steps from the given state. -/
def admRunFrom (s : AdmSt) (evts : List AdmEvt) : AdmSt :=
  evts.foldl admStep s

/-- Run a trace of admission steps from the empty engine. -/
def admRun (evts : List AdmEvt) : AdmSt :=
  admRunFrom { pending := [], backlog := [], running := [] } evts

/-- Number of jobs of task `t` currently queued or running. -/
def qrCount (s : AdmSt) (t : ℕ) : ℕ :=
  s.backlog.count t + s.running.count t

/-- Number of jobs of task `t` pending admission, queued, or running. -/
def totCount (s : AdmSt) (t : ℕ) : ℕ :=
  s.pending.count t + qrCount s t

/-- Serialization guard on a trace: every `check t` runs at a moment
with no prior job of `t` still pending admission (no firing's guard is
evaluated inside another firing's interruption window). -/
def checksSerialized (t : ℕ) (s : AdmSt) : List AdmEvt → Bool
  | [] => true
  | e :: rest =>
    (if e = .check t then s.pending.count t == 0 else true) &&
      checksSerialized t (admStep s e) rest

/-! ## Task loading (`Cameleer.loadTasks`)

`loadTasks` first throws if tasks are currently loaded
(`_tasksArr.length > 0`), then collects all config names and throws
when they are not pairwise distinct (`names.length !== new
Set(names).size`) — both checks precede the registration loop.  The
loop itself registers each enabled task and adds its schedule to the
matching scheduler; an instantiation failure there aborts mid-loop. -/

/-- The slice of a task config that task loading observes.  `ctorOk`
models `Task.fromConfiguration` succeeding for this config. -/
structure LoadCfg where
  name : String
  enabled : Bool
  ctorOk : Bool
  schedId : ℕ
  deriving Repr, DecidableEq

/-- Engine state touched by `loadTasks`: the loaded-task map (as its
list of names) and the set of registered schedules. -/
structure LoadSt where
  tasks : List String
  schedules : List ℕ
  deriving Repr, DecidableEq

/-- Load errors raised by `loadTasks`. -/
inductive LoadErr where
  | tasksLoaded
  | dupNames
  | ctorFailed
  deriving Repr, DecidableEq

/-- The registration loop of `loadTasks`: instantiate each task
(aborting on failure with the state mutated so far), skip disabled
tasks, and register name and schedule of the enabled ones. -/
def loadTasksGo (st : LoadSt) : List LoadCfg → LoadSt × Option LoadErr
  | [] => (st, none)
  | c :: rest =>
    if !c.ctorOk then (st, some .ctorFailed)
    else if !c.enabled then loadTasksGo st rest
    else
      loadTasksGo
        { tasks := st.tasks ++ [c.name], schedules := st.schedules ++ [c.schedId] }
        rest

/-- `Cameleer.loadTasks`, embedded in statement order: the
already-loaded check, the duplicate-name check, then the registration
loop. -/
def loadTasks (st : LoadSt) (cfgs : List LoadCfg) : LoadSt × Option LoadErr :=
  if st.tasks.length > 0 then (st, some .tasksLoaded)
  else
    let names := cfgs.map (·.name)
    if names.length ≠ names.dedup.length then (st, some .dupNames)
    else loadTasksGo st cfgs

/-! ## The static-task-context debounce

On every set of a task's observable context map the callback installed
by `loadTasks` runs: it cancels a pending save timer, then (when
`staticTaskContextSerializeInterval > 0`) arms a new timer for the full
interval.  When a timer expires before the next write, the save runs
and the slot is cleared.  Writes are given by their times, in order;
`d` is the serialize interval. -/

/-- Debounce state: the pending timer's fire time, if a timer is armed,
and the times at which saves have fired so far. -/
structure DebSt where
  pendingFire : Option ℕ
  saves : List ℕ
  deriving Repr, DecidableEq

/-- Process one context write at time `w`: a previously armed timer has
fired iff its fire time has passed (`≤ w`); otherwise the write cancels
it.  The write then arms a fresh timer for `w + d` when `d > 0`. -/
def debounceWrite (d : ℕ) (s : DebSt) (w : ℕ) : DebSt :=
  let saves := match s.pendingFire with
    | some ft => if ft ≤ w then s.saves ++ [ft] else s.saves
    | none => s.saves
  { pendingFire := if d > 0 then some (w + d) else none, saves := saves }

/-- All save times produced by a write burst once it is quiet: process
the writes in order, then let any still-armed timer fire. -/
def debounceSaves (d : ℕ) (ws : List ℕ) : List ℕ :=
  let s := ws.foldl (debounceWrite d) { pendingFire := none, saves := [] }
  s.saves ++ (match s.pendingFire with | some ft => [ft] | none => [])

/-- Consecutive writes of the burst are separated by less than `d`. -/
def burstGapsLt (d : ℕ) : List ℕ → Bool
  | [] => true
  | [_] => true
  | w₁ :: w₂ :: ws => (w₁ ≤ w₂ && w₂ < w₁ + d) && burstGapsLt d (w₂ :: ws)

/-! ## The `results`/`result` getters and aliasing
(`CameleerJob.results`, `CameleerJob.result`,
`RunAttempt.previousResult`)

JavaScript arrays are heap objects; `slice(0)` allocates a copy while
`reverse()` reverses its receiver in place and returns it.  To settle
whether the getters mutate the job's stored `_results` array, arrays
are modelled in a store of arrays addressed by reference. -/

/-- A heap of arrays; a reference is an index into it. -/
structure ArrStore (α : Type) where
  arrays : List (List α)
  deriving Repr

/-- Dereference (out-of-range reads yield the empty array; all
references used below are in range). -/
def ArrStore.read {α : Type} (s : ArrStore α) (r : ℕ) : List α :=
  (s.arrays[r]?).getD []

/-- Overwrite the array behind reference `r`. -/
def ArrStore.write {α : Type} (s : ArrStore α) (r : ℕ) (v : List α) : ArrStore α :=
  { arrays := s.arrays.set r v }

/-- `arr.slice(0)`: allocate a fresh array holding the same elements
and return a reference to it. -/
def jsSlice {α : Type} (s : ArrStore α) (r : ℕ) : ℕ × ArrStore α :=
  (s.arrays.length, { arrays := s.arrays ++ [s.read r] })

/-- `arr.reverse()`: reverse the receiver in place and return the same
reference. -/
def jsReverse {α : Type} (s : ArrStore α) (r : ℕ) : ℕ × ArrStore α :=
  (r, s.write r (s.read r).reverse)

/-- The `CameleerJob.results` getter: `this._results.slice(0)`.
`res` is the reference held in the job's `_results` field. -/
def jobResultsGet {α : Type} (s : ArrStore α) (res : ℕ) : ℕ × ArrStore α :=
  jsSlice s res

/-- The `CameleerJob.result` getter:
`this.results.length === 0 ? void 0 : this.results.reverse()[0]`
(each mention of `this.results` runs the getter and makes its own
copy). -/
def jobResultGet {α : Type} (s : ArrStore α) (res : ℕ) : Option α × ArrStore α :=
  let c₁ := (jobResultsGet s res).1
  let s₁ := (jobResultsGet s res).2
  if (s₁.read c₁).length = 0 then (none, s₁)
  else
    let s₂ := (jobResultsGet s₁ res).2
    let c₃ := (jsReverse s₂ (jobResultsGet s₁ res).1).1
    let s₃ := (jsReverse s₂ (jobResultsGet s₁ res).1).2
    ((s₃.read c₃)[0]?, s₃)

/-- `RunAttempt.previousResult`:
`this.job.results.length === 0 ? void 0 : this.job.results.reverse()[0]`
— the same shape through the job's `results` getter. -/
def previousResultGet {α : Type} (s : ArrStore α) (res : ℕ) : Option α × ArrStore α :=
  jobResultGet s res

/-- A read of one of the three getters. -/
inductive GetterRead where
  | results
  | result
  | previousResult
  deriving Repr, DecidableEq

/-- Perform one getter read, keeping only the store. -/
def getterStep {α : Type} (res : ℕ) (s : ArrStore α) (g : GetterRead) : ArrStore α :=
  match g with
  | .results => (jobResultsGet s res).2
  | .result => (jobResultGet s res).2
  | .previousResult => (previousResultGet s res).2

/-- Perform a sequence of getter reads. -/
def getterReads {α : Type} (res : ℕ) (s : ArrStore α) (gs : List GetterRead) :
    ArrStore α :=
  gs.foldl (getterStep res) s

/-! ## Concrete data used by witnesses and counterexamples -/

/-- A cost queue whose `capabilities` equals the task cost used
against it (no exclusive jobs): the boundary case distinguishing `<`
from `<=`. -/
def qBoundary : CQueue :=
  { name := "boundary", isParallel := false, isDefault := false,
    allowExclusiveJobs := false, capabilities := 1, load := 0 }

/-- First of two cost queues with equal favorability
(`4 / 2 = 2 = 2 / 1`). -/
def qTieA : CQueue :=
  { name := "A", isParallel := false, isDefault := false,
    allowExclusiveJobs := false, capabilities := 4, load := 2 }

/-- Second of two cost queues with equal favorability. -/
def qTieB : CQueue :=
  { name := "B", isParallel := false, isDefault := false,
    allowExclusiveJobs := false, capabilities := 2, load := 1 }

/-- A cost task demanding the two tied queues, `A` before `B` (the
same order the engine configuration lists them in). -/
def cfgTie : SelConfig := { name := "t", cost := some 1, queues := ["A", "B"] }

/-- Two parallel queues with distinct loads and a task demanding both,
used by witnesses. -/
def qParSlow : CQueue :=
  { name := "slow", isParallel := true, isDefault := false,
    allowExclusiveJobs := false, capabilities := 0, load := 5 }

/-- The lighter of the two parallel queues. -/
def qParFast : CQueue :=
  { name := "fast", isParallel := true, isDefault := false,
    allowExclusiveJobs := false, capabilities := 0, load := 2 }

/-- A non-cost task demanding both parallel queues. -/
def cfgPar : SelConfig :=
  { name := "p", cost := none, queues := ["slow", "fast"] }

/-- A store holding a single two-element results array. -/
def store0 : ArrStore ℕ := { arrays := [[41, 42]] }

/-- The job's `_results` reference into `store0`. -/
def res0 : ℕ := 0

/-- A sequence of getter reads exercising all three getters twice. -/
def reads0 : List GetterRead :=
  [.results, .result, .previousResult, .result, .results, .previousResult]

/-! ## Theorems -/

/-- C4 evaluation: the step definition's `canFail.maxNumFails` is the
callable `func 0`, which `resolveErrorConfig` resolves to `1` (the
environment interprets it), so the claimed bound on step-body
invocations is `1 + 1 = 2`.  The recovery loop, however, compares its
fail counter with `===` against the unresolved slot — a function —
which no number equals, so after three recovery firings of an
always-failing body the loop has invoked the body three times (four
in total with the regular attempt, exceeding the bound) and is still
pending rather than budget-exhausted. -/
theorem C4_callable_budget_not_enforced :
    (runErroredBySchedule (.func 0) (fun _ => false)
        [.fire, .fire, .fire]).invocations = 3 ∧
    (runErroredBySchedule (.func 0) (fun _ => false)
        [.fire, .fire, .fire]).outcome = .pending ∧
    resolveMNF (fun _ => 1) (.func 0) = 1 ∧
    1 + 3 > 1 + resolveMNF (fun _ => 1) (.func 0) := by
  refine ⟨rfl, rfl, rfl, ?_⟩
  decide

/-- C5 evaluation: a step whose `canFail` record gives only
`skip = true` (no `schedule`) is normalized with `schedule` set to the
absent `def.canFail.schedule` — the JavaScript `undefined` — instead
of the engine default: the branch keyed on `skip` assigns the
`schedule` member.  The result therefore differs from the
explicit-over-default merge the spec prescribes exactly in the
`schedule` field. -/
theorem C5_skip_clobbers_schedule :
    (createFunctionalTaskErrorFromDef engineErrDefaults
        (.record ⟨none, none, some true, none⟩)).schedule = none ∧
    (specMergedErrConf engineErrDefaults
        ⟨none, none, some true, none⟩).schedule = some engineErrDefaults.schedule ∧
    createFunctionalTaskErrorFromDef engineErrDefaults
        (.record ⟨none, none, some true, none⟩) ≠
      specMergedErrConf engineErrDefaults ⟨none, none, some true, none⟩ := by
  refine ⟨rfl, rfl, ?_⟩
  decide

/-- C6: for a step with `canFail = false` (and the engine defaults'
`skip` being false, as shipped), the normalized configuration resolves
to zero retry budget with no skip; a thrown value `v` then takes the
zero-budget path of `_runErrored`, raising a `finalFail`
`AttemptError` whose `wrappedErr` is `v` itself, and
`CameleerJob._attempt` wraps that error into the `JobFailError` the
queue observes, still carrying `v`. -/
theorem C6_canFail_false_preserves_throw {α ε : Type} (dflt : ErrDefaults)
    (env : ℕ → ℕ) (hskip : dflt.skip = false) (v : ε)
    (recovery : Except ε (CamResult α ε)) :
    resolveErrorConfig env (createFunctionalTaskErrorFromDef dflt (.flag false)) =
      .ok { schedule := dflt.schedule, maxNumFails := 0, skip := false,
            continueOnFinalFail := false } ∧
    runErrored { schedule := dflt.schedule, maxNumFails := 0, skip := false,
                 continueOnFinalFail := false } v recovery =
      .error { errType := .finalFail, wrappedErr := v } ∧
    ((jobAttempt [(.error { errType := .finalFail, wrappedErr := v } :
          Except (AttemptErr ε) (CamResult α ε))]).2.2).map
        (fun jf => jf.previousError.wrappedErr) = some v := by
  refine ⟨?_, rfl, rfl⟩
  simp [resolveErrorConfig, createFunctionalTaskErrorFromDef, hskip, resolveMNF]

/-- C6 witness: the shipped engine defaults and the thrown string
`"42"` of the spec's hard-fail scenario. -/
theorem C6_canFail_false_preserves_throw_witness :
    engineErrDefaults.skip = false ∧
    resolveErrorConfig (fun _ => 0)
        (createFunctionalTaskErrorFromDef engineErrDefaults (.flag false)) =
      .ok { schedule := engineErrDefaults.schedule, maxNumFails := 0,
            skip := false, continueOnFinalFail := false } := by
  exact ⟨rfl,
    (C6_canFail_false_preserves_throw (α := ℕ) engineErrDefaults (fun _ => 0)
      rfl "42" (.error "other")).1⟩

/-- C3: if every step before index `i` returns a `Result` and step `i`
raises (its Run Attempt failed finally with `continueOnFinalFail`
false, or failed resolving args or error config), then the job executes
exactly the steps `0 … i`, collects exactly the prior steps' `Result`s
in order — the failing step contributes nothing to `results` — and
fails with a `JobFailError` wrapping the step's `AttemptError` (the
queue then emits `failed` for the job). -/
theorem C3_fail_fast_results {α ε : Type} (pre : List (CamResult α ε))
    (e : AttemptErr ε) (rest : List (Except (AttemptErr ε) (CamResult α ε))) :
    jobAttempt (pre.map .ok ++ .error e :: rest) =
      (pre, List.range (pre.length + 1), some { previousError := e }) := by
  have go : ∀ (p : List (CamResult α ε)) (i : ℕ),
      jobAttemptGo i (p.map .ok ++ .error e :: rest) =
        (p, List.range' i (p.length + 1), some { previousError := e }) := by
    intro p
    induction p with
    | nil => intro i; simp [jobAttemptGo, List.range'_one]
    | cons r p ih =>
      intro i
      simp [jobAttemptGo, ih (i + 1), List.range'_succ]
  rw [jobAttempt, go pre 0, List.range_eq_range']

/-- C8: `loadTasks` refuses to run while tasks are loaded, and refuses
duplicate config names; the duplicate-name check precedes the
registration loop, so that failure leaves the loaded-task map and the
registered schedules exactly as they were (nothing registered, no
schedule added). -/
theorem C8_loadTasks_guards (st : LoadSt) (cfgs : List LoadCfg) :
    (st.tasks ≠ [] → loadTasks st cfgs = (st, some .tasksLoaded)) ∧
    (¬ (cfgs.map (·.name)).Nodup → st.tasks = [] →
      loadTasks st cfgs = (st, some .dupNames)) := by
  constructor
  · intro h
    have : 0 < st.tasks.length := List.length_pos.mpr h
    simp [loadTasks, this]
  · intro hdup hempty
    have hlen : (cfgs.map (·.name)).length = cfgs.length := List.length_map _ _
    have hne : cfgs.length ≠ (cfgs.map (·.name)).dedup.length := by
      intro hlenEq
      apply hdup
      have heq : (cfgs.map (·.name)).dedup = cfgs.map (·.name) :=
        (List.dedup_sublist (cfgs.map (·.name))).eq_of_length
          (by rw [hlen, ← hlenEq])
      simpa [heq] using (cfgs.map (·.name)).nodup_dedup
    simp [loadTasks, hempty, hne]

/-- C8 witness: two configs named `foo` against an empty engine. -/
theorem C8_loadTasks_guards_witness :
    loadTasks { tasks := [], schedules := [] }
        [{ name := "foo", enabled := true, ctorOk := true, schedId := 0 },
         { name := "foo", enabled := true, ctorOk := true, schedId := 1 }] =
      ({ tasks := [], schedules := [] }, some .dupNames) ∧
    loadTasks { tasks := ["bar"], schedules := [2] } [] =
      ({ tasks := ["bar"], schedules := [2] }, some .tasksLoaded) := by
  constructor
  · exact (C8_loadTasks_guards _ _).2 (by decide) rfl
  · exact (C8_loadTasks_guards _ _).1 (by decide)

/-- Helper for C9: while the burst is running (each write less than
`d` after its predecessor), every write cancels the pending timer
before it can fire and re-arms it for the full interval after itself;
no save occurs during the burst and the pending fire time tracks the
last write. -/
theorem debounce_burst_invariant (d : ℕ) (hd : 0 < d) :
    ∀ (ws : List ℕ) (w : ℕ) (saves : List ℕ),
      burstGapsLt d (w :: ws) = true →
      ws.foldl (debounceWrite d) { pendingFire := some (w + d), saves := saves } =
        { pendingFire := some (ws.getLastD w + d), saves := saves } := by
  intro ws
  induction ws with
  | nil => intro w saves _; rfl
  | cons w₂ ws ih =>
    intro w saves hb
    simp only [burstGapsLt, Bool.and_eq_true, decide_eq_true_eq] at hb
    obtain ⟨⟨-, hlt⟩, hrest⟩ := hb
    have hstep :
        debounceWrite d { pendingFire := some (w + d), saves := saves } w₂ =
          { pendingFire := some (w₂ + d), saves := saves } := by
      simp [debounceWrite, hd, Nat.not_le.mpr hlt]
    rw [List.foldl_cons, hstep, ih w₂ saves hrest, List.getLastD_cons]

/-- C9: a burst of context writes whose consecutive writes are less
than the serialize interval apart produces exactly one save once the
burst is quiet, scheduled the full interval after the last write: every
write cancels the pending timer and re-arms it, and only the last
timer survives to fire. -/
theorem C9_debounce_collapses_burst (d : ℕ) (hd : 0 < d) (w : ℕ)
    (ws : List ℕ) (hb : burstGapsLt d (w :: ws) = true) :
    debounceSaves d (w :: ws) = [ws.getLastD w + d] := by
  unfold debounceSaves
  have hfirst :
      debounceWrite d { pendingFire := none, saves := [] } w =
        { pendingFire := some (w + d), saves := [] } := by
    simp [debounceWrite, hd]
  rw [List.foldl_cons, hfirst, debounce_burst_invariant d hd ws w [] hb]
  simp

/-- C9 witness: interval 5, writes at 0, 3 and 6 — one save, at 11. -/
theorem C9_debounce_collapses_burst_witness :
    debounceSaves 5 [0, 3, 6] = [11] :=
  C9_debounce_collapses_burst 5 (by decide) 0 [3, 6] (by decide)

/-- Helper for C10: one getter read leaves the array behind any
in-range reference unchanged and never shrinks the store (`slice`
appends fresh arrays; the in-place `reverse` targets only the fresh
copy). -/
theorem getterStep_frame {α : Type} (res r : ℕ) (s : ArrStore α)
    (g : GetterRead) (h : r < s.arrays.length) :
    (getterStep res s g).read r = s.read r ∧
      s.arrays.length ≤ (getterStep res s g).arrays.length := by
  have hslice : ∀ (t : ArrStore α), r < t.arrays.length →
      (jsSlice t res).2.read r = t.read r ∧
        (jsSlice t res).2.arrays.length = t.arrays.length + 1 := by
    intro t ht
    refine ⟨?_, by simp [jsSlice]⟩
    simp only [jsSlice, ArrStore.read]
    rw [List.getElem?_append_left ht]
  cases g with
  | results =>
    have := hslice s h
    exact ⟨this.1, by simp [getterStep, jobResultsGet, this.2]⟩
  | result | previousResult =>
    simp only [getterStep, previousResultGet, jobResultGet, jobResultsGet]
    have h₁ := hslice s h
    by_cases hempty :
        ((jsSlice s res).2.read (jsSlice s res).1).length = 0
    · rw [if_pos hempty]
      refine ⟨h₁.1, ?_⟩
      show s.arrays.length ≤ (jsSlice s res).2.arrays.length
      omega
    · rw [if_neg hempty]
      have hr₁ : r < (jsSlice s res).2.arrays.length := by omega
      have h₂ := hslice (jsSlice s res).2 hr₁
      have hr₂ : r < (jsSlice (jsSlice s res).2 res).2.arrays.length := by omega
      have hfresh : (jsSlice (jsSlice s res).2 res).1 =
          (jsSlice s res).2.arrays.length := rfl
      have hrev :
          (jsReverse (jsSlice (jsSlice s res).2 res).2
              (jsSlice (jsSlice s res).2 res).1).2.read r =
            (jsSlice (jsSlice s res).2 res).2.read r := by
        simp only [jsReverse, ArrStore.write, ArrStore.read, hfresh]
        rw [List.getElem?_set_ne (by omega)]
      refine ⟨by rw [hrev, h₂.1, h₁.1], ?_⟩
      simp only [jsReverse, ArrStore.write]
      rw [List.length_set]
      omega

/-- C10: any sequence of reads of `CameleerJob.results`,
`CameleerJob.result` or `RunAttempt.previousResult` leaves the job's
stored `_results` array untouched — each getter copies the array with
`slice(0)` and the in-place `reverse` hits only the copy — and a
`results` read performed afterwards still returns the original
sequence, entry `i` corresponding to step `i`. -/
theorem C10_getters_pure (α : Type) (s : ArrStore α) (res : ℕ)
    (h : res < s.arrays.length) (gs : List GetterRead) :
    (getterReads res s gs).read res = s.read res ∧
      ((jobResultsGet (getterReads res s gs) res).2).read
          (jobResultsGet (getterReads res s gs) res).1 = s.read res := by
  have main : ∀ (gs : List GetterRead) (t : ArrStore α),
      res < t.arrays.length →
      (getterReads res t gs).read res = t.read res ∧
        res < (getterReads res t gs).arrays.length := by
    intro gs
    induction gs with
    | nil => intro t ht; exact ⟨rfl, ht⟩
    | cons g gs ih =>
      intro t ht
      have hstep := getterStep_frame res res t g ht
      have hih := ih (getterStep res t g) (by omega)
      refine ⟨?_, ?_⟩
      · show (getterReads res (getterStep res t g) gs).read res = t.read res
        rw [hih.1, hstep.1]
      · show res < (getterReads res (getterStep res t g) gs).arrays.length
        exact hih.2
  have hm := main gs s h
  refine ⟨hm.1, ?_⟩
  have hcopy : ((jobResultsGet (getterReads res s gs) res).2).read
      (jobResultsGet (getterReads res s gs) res).1 =
        (getterReads res s gs).read res := by
    simp [jobResultsGet, jsSlice, ArrStore.read]
  rw [hcopy, hm.1]

/-- C10 witness: a store holding one two-element results array, read by
all three getters twice over. -/
theorem C10_getters_pure_witness :
    res0 < store0.arrays.length ∧
      (getterReads res0 store0 reads0).read res0 = store0.read res0 := by
  exact ⟨by decide,
    (C10_getters_pure ℕ store0 res0 (by decide) reads0).1⟩

/-- Helper: `insertJs` permutes its element into the list. -/
theorem insertJs_perm {α : Type} (cmp : α → α → Int) (x : α) :
    ∀ l : List α, (insertJs cmp x l).Perm (x :: l)
  | [] => List.Perm.refl _
  | y :: ys => by
    unfold insertJs
    by_cases hc : cmp x y < 0
    · rw [if_pos hc]
    · rw [if_neg hc]
      exact ((insertJs_perm cmp x ys).cons y).trans (List.Perm.swap x y ys)

/-- Helper: `sortJs` permutes the input list. -/
theorem sortJs_perm {α : Type} (cmp : α → α → Int) (l : List α) :
    (sortJs cmp l).Perm l := by
  suffices h : ∀ (l acc : List α),
      (l.foldl (fun a x => insertJs cmp x a) acc).Perm (acc ++ l) by
    simpa using h l []
  intro l
  induction l with
  | nil => intro acc; simp
  | cons x l ih =>
    intro acc
    simp only [List.foldl_cons]
    refine (ih (insertJs cmp x acc)).trans ?_
    refine (List.Perm.append_right l (insertJs_perm cmp x acc)).trans ?_
    exact List.perm_middle.symm

/-- Helper: the head of `sortJs` is the fold that keeps the current
champion unless the incoming element compares strictly before it —
because inserting an element changes the head of the accumulated list
exactly when the comparison against the current head is negative. -/
theorem sortJs_head {α : Type} (cmp : α → α → Int) (a : α) (l : List α) :
    (sortJs cmp (a :: l)).head? =
      some (l.foldl (fun b x => if cmp x b < 0 then x else b) a) := by
  suffices h : ∀ (l : List α) (b : α) (rest : List α),
      (l.foldl (fun acc x => insertJs cmp x acc) (b :: rest)).head? =
        some (l.foldl (fun c x => if cmp x c < 0 then x else c) b) by
    simpa [sortJs] using h l a []
  intro l
  induction l with
  | nil => intro b rest; rfl
  | cons x xs ih =>
    intro b rest
    simp only [List.foldl_cons, insertJs]
    by_cases hc : cmp x b < 0
    · rw [if_pos hc, if_pos hc]
      exact ih x (b :: rest)
    · rw [if_neg hc, if_neg hc]
      exact ih b (insertJs cmp x rest)

/-- Helper: the parallel comparator orders by load. -/
theorem cmpParallel_min (b x : CQueue) :
    (if cmpParallel x b < 0 then x else b) = if x.load < b.load then x else b := by
  by_cases hl : x.load < b.load
  · simp [cmpParallel, hl]
  · simp [cmpParallel, hl]

/-- Helper: the strict-improvement fold splits its input around its
result: everything before it is strictly larger in `f`, everything
after is at least as large — it is the earliest minimum. -/
theorem foldFirstMin_split {α : Type} (f : α → ℚ) :
    ∀ (l : List α) (a : α),
      ∃ l₁ l₂,
        a :: l = l₁ ++ (l.foldl (fun c x => if f x < f c then x else c) a) :: l₂ ∧
        (∀ p ∈ l₁, f (l.foldl (fun c x => if f x < f c then x else c) a) < f p) ∧
        (∀ p ∈ l₂, f (l.foldl (fun c x => if f x < f c then x else c) a) ≤ f p) := by
  intro l
  induction l with
  | nil =>
    intro a
    exact ⟨[], [], rfl, by simp, by simp⟩
  | cons x xs ih =>
    intro a
    simp only [List.foldl_cons]
    by_cases hx : f x < f a
    · rw [if_pos hx]
      obtain ⟨l₁, l₂, hsplit, hpre, hpost⟩ := ih x
      have hmem : (xs.foldl (fun c x => if f x < f c then x else c) x) ∈ x :: xs := by
        rw [hsplit]
        exact List.mem_append_right l₁ (List.mem_cons_self _ _)
      have hmin : ∀ p ∈ x :: xs,
          f (xs.foldl (fun c x => if f x < f c then x else c) x) ≤ f p := by
        intro p hp
        rw [hsplit] at hp
        rcases List.mem_append.mp hp with h₁ | h₂
        · exact le_of_lt (hpre p h₁)
        · rcases List.mem_cons.mp h₂ with he | h₂'
          · rw [he]
          · exact hpost p h₂'
      refine ⟨a :: l₁, l₂, by rw [List.cons_append, ← hsplit], ?_, hpost⟩
      intro p hp
      rcases List.mem_cons.mp hp with hpa | hpl
      · exact hpa ▸ lt_of_le_of_lt (hmin x (List.mem_cons_self x xs)) hx
      · exact hpre p hpl
    · rw [if_neg hx]
      obtain ⟨l₁, l₂, hsplit, hpre, hpost⟩ := ih a
      rcases l₁ with - | ⟨c, l₁⟩
      · simp only [List.nil_append, List.cons.injEq] at hsplit
        refine ⟨[], x :: l₂, ?_, by simp, ?_⟩
        · simp [← hsplit.1, ← hsplit.2]
        · intro p hp
          rcases List.mem_cons.mp hp with hpx | hpl
          · rw [hpx, ← hsplit.1]
            exact not_lt.mp hx
          · exact hpost p hpl
      · simp only [List.cons_append, List.cons.injEq] at hsplit
        obtain ⟨hca, hxs⟩ := hsplit
        have ha : f (xs.foldl (fun c x => if f x < f c then x else c) a) < f a :=
          hca ▸ hpre c (List.mem_cons_self c l₁)
        refine ⟨a :: x :: l₁, l₂, ?_, ?_, hpost⟩
        · rw [List.cons_append, List.cons_append, ← hxs, hca]
        · intro p hp
          rcases List.mem_cons.mp hp with hpa | hp'
          · exact hpa ▸ ha
          · rcases List.mem_cons.mp hp' with hpx | hpl
            · exact hpx ▸ lt_of_lt_of_le ha (not_lt.mp hx)
            · exact hpre p (List.mem_cons_of_mem c hpl)

/-- Helper: every member of `queuesAllowedByTask` is appropriate for
the task — each demanded name passed the appropriateness filter, and
with unique queue names the subsequent map lookup returns that very
queue. -/
theorem allowedQueues_appropriate (queuesArr : List CQueue) (cfg : SelConfig)
    (hnd : (queuesArr.map (·.name)).Nodup) {q : CQueue}
    (hm : q ∈ allowedQueues queuesArr cfg) :
    isAppropriate cfg.cost q = true := by
  unfold allowedQueues at hm
  simp only [List.mem_filterMap] at hm
  obtain ⟨n, hn, hfind⟩ := hm
  rw [List.mem_filter] at hn
  have hq_mem : q ∈ queuesArr := List.mem_of_find?_eq_some hfind
  have hq_name : q.name = n := by
    have := List.find?_some hfind
    simpa using this
  have hlen := hn.2
  simp only [decide_eq_true_eq, gt_iff_lt, List.length_pos] at hlen
  obtain ⟨cq, hcq⟩ := List.exists_mem_of_ne_nil _ hlen
  rw [List.mem_filter] at hcq
  obtain ⟨hcq_app, hcq_name⟩ := hcq
  rw [List.mem_filter] at hcq_app
  have hcq_name' : cq.name = n := by simpa using hcq_name
  have : cq = q :=
    List.inj_on_of_nodup_map hnd hcq_app.1 hq_mem (by rw [hcq_name', hq_name])
  exact this ▸ hcq_app.2

/-- Helper: a successful queue selection only ever returns an
appropriate queue (default path: the default is drawn from the
appropriate ones; demanded path: the sorted candidates permute
`queuesAllowedByTask`, whose members are appropriate). -/
theorem selectBestMatchingQueue_appropriate (queuesArr : List CQueue)
    (cfg : SelConfig) (q : CQueue)
    (hnd : (queuesArr.map (·.name)).Nodup)
    (hsel : selectBestMatchingQueue queuesArr cfg = .ok q) :
    isAppropriate cfg.cost q = true := by
  have fromSorted : ∀ (cmp : CQueue → CQueue → Int) (c : CQueue) (cs : List CQueue),
      allowedQueues queuesArr cfg = c :: cs →
      (match sortJs cmp (c :: cs) with
        | [] => (.error "unreachable" : Except String CQueue)
        | r :: _ => .ok r) = .ok q →
      isAppropriate cfg.cost q = true := by
    intro cmp c cs hallowed hmatch
    rcases hE : sortJs cmp (c :: cs) with - | ⟨r, rest⟩
    · have hlen := (sortJs_perm cmp (c :: cs)).length_eq
      rw [hE] at hlen
      simp at hlen
    · rw [hE] at hmatch
      have hrq : r = q := by simpa using hmatch
      have hr_mem : r ∈ c :: cs :=
        (sortJs_perm cmp (c :: cs)).mem_iff.mp (hE ▸ List.mem_cons_self r rest)
      exact allowedQueues_appropriate queuesArr cfg hnd
        (hrq ▸ hallowed ▸ hr_mem)
  unfold selectBestMatchingQueue at hsel
  split at hsel
  · rename_i dq tail heq1 heq2
    have hq : dq = q := by simpa using hsel
    have hdq_mem : dq ∈ (queuesArr.filter (isAppropriate cfg.cost)).filter
        (·.isDefault) := by
      rw [heq2]
      exact List.mem_cons_self dq tail
    rw [List.mem_filter, List.mem_filter] at hdq_mem
    exact hq ▸ hdq_mem.1.2
  · split at hsel
    · exact absurd hsel (by simp)
    · split at hsel
      · exact absurd hsel (by simp)
      · rename_i c cs c' heqA heqC
        exact fromSorted cmpCost c cs heqA hsel
      · rename_i c cs heqA heqC
        exact fromSorted cmpParallel c cs heqA hsel

/-- C1 counterexample: a cost queue whose `capabilities` equals the
task's cost, with exclusive jobs disallowed.  The spec's `cost <=
capabilities` admits it; `_selectBestMatchingQueue` filters it out
(`config.cost < cq.queue.capabilities` is strict), so a task demanding
only this queue fails selection outright. -/
theorem C1_boundary_counterexample :
    isAppropriate (some 1) qBoundary = false ∧
    specAppropriate (some 1) qBoundary = true ∧
    qBoundary.isParallel = false ∧
    qBoundary.allowExclusiveJobs = false ∧
    (1 : ℚ) ≤ qBoundary.capabilities ∧
    selectBestMatchingQueue [qBoundary]
        { name := "t", cost := some 1, queues := ["boundary"] } =
      .error "There are no appropriate Queues available for the task." := by
  refine ⟨by decide, by decide, rfl, rfl, by decide, rfl⟩

/-- C1, amended: queue selection treats a queue as appropriate exactly
when it is a cost queue and the task's cost is *strictly less than*
the queue's capabilities or the queue allows exclusive jobs; for a
task without a numeric cost exactly the parallel queues are
appropriate; and a successful selection only ever returns an
appropriate queue. -/
theorem C1_appropriateness :
    (∀ (c : ℚ) (q : CQueue), isAppropriate (some c) q = true ↔
        q.isParallel = false ∧ (c < q.capabilities ∨ q.allowExclusiveJobs = true)) ∧
    (∀ q : CQueue, isAppropriate none q = true ↔ q.isParallel = true) ∧
    (∀ (queuesArr : List CQueue) (cfg : SelConfig) (q : CQueue),
      (queuesArr.map (·.name)).Nodup →
      selectBestMatchingQueue queuesArr cfg = .ok q →
      isAppropriate cfg.cost q = true) := by
  refine ⟨?_, ?_, ?_⟩
  · intro c q
    simp [isAppropriate]
  · intro q
    simp [isAppropriate]
  · intro queuesArr cfg q hnd hsel
    exact selectBestMatchingQueue_appropriate queuesArr cfg q hnd hsel

/-- C1 witness: the selection part applied to two parallel queues and
a non-cost task demanding both. -/
theorem C1_appropriateness_witness :
    (([qParSlow, qParFast].map (·.name)).Nodup ∧
      selectBestMatchingQueue [qParSlow, qParFast] cfgPar = .ok qParFast) ∧
    isAppropriate cfgPar.cost qParFast = true := by
  refine ⟨⟨by decide, rfl⟩, ?_⟩
  exact C1_appropriateness.2.2 [qParSlow, qParFast] cfgPar qParFast (by decide) rfl

/-- C7 counterexample: two cost queues with equal favorability
(`4 / 2 = 2 / 1`), the task demanding `A` before `B` (matching the
engine's configuration order).  The cost comparator returns `-1` on
equality, so the sort places the later candidate first and selection
returns `B`, not the earlier `A` the claim requires. -/
theorem C7_cost_tie_counterexample :
    favorability qTieA = favorability qTieB ∧
    selectBestMatchingQueue [qTieA, qTieB] cfgTie = .ok qTieB ∧
    qTieB ≠ qTieA := by
  have hfav : favorability qTieA = favorability qTieB := by
    norm_num [favorability, qTieA, qTieB]
  have hcmp : cmpCost qTieB qTieA = -1 := by
    norm_num [cmpCost, favorability, qTieA, qTieB]
  refine ⟨hfav, ?_, by decide⟩
  have hcmp2 : cmpCost
      { name := "B", isParallel := false, isDefault := false,
        allowExclusiveJobs := false, capabilities := 2, load := 1 }
      { name := "A", isParallel := false, isDefault := false,
        allowExclusiveJobs := false, capabilities := 4, load := 2 } = -1 := hcmp
  simp only [selectBestMatchingQueue, allowedQueues, cfgTie]
  norm_num [isAppropriate, qTieA, qTieB, sortJs, insertJs, hcmp]
  simp [List.find?, List.filterMap, insertJs, hcmp2, qTieA, qTieB]

/-- C7, amended (parallel part): for a non-cost task restricted to its
explicitly allowed appropriate queues, the selected queue splits the
candidate list (in the task's demanded order) so that every candidate
before it has strictly greater load and every one after it has at
least its load: the lowest load is picked and equal-load ties go to
the earliest candidate.  (Cost-case ties go to the *later* candidate,
as the counterexample shows.) -/
theorem C7_parallel_lowest_load (queuesArr : List CQueue) (cfg : SelConfig)
    (q : CQueue) (hcost : cfg.cost = none) (hq : cfg.queues ≠ [])
    (hsel : selectBestMatchingQueue queuesArr cfg = .ok q) :
    ∃ l₁ l₂, allowedQueues queuesArr cfg = l₁ ++ q :: l₂ ∧
      (∀ p ∈ l₁, q.load < p.load) ∧ (∀ p ∈ l₂, q.load ≤ p.load) := by
  unfold selectBestMatchingQueue at hsel
  split at hsel
  · rename_i dq tail heq1 heq2
    exact absurd heq1 hq
  · split at hsel
    · exact absurd hsel (by simp)
    · split at hsel
      · exact absurd hsel (by simp)
      · rename_i c cs c' heqA heqC
        rw [heqC] at hcost
        exact absurd hcost (by simp)
      · rename_i c cs heqA heqC
        rcases hE : sortJs cmpParallel (c :: cs) with - | ⟨r, rest⟩
        · have hlen := (sortJs_perm cmpParallel (c :: cs)).length_eq
          rw [hE] at hlen
          simp at hlen
        · rw [hE] at hsel
          have hrq : r = q := by simpa using hsel
          have hhead := sortJs_head cmpParallel c cs
          rw [hE] at hhead
          have hfold :
              q = cs.foldl (fun b x => if cmpParallel x b < 0 then x else b) c := by
            rw [← hrq]
            simpa using hhead
          have hcongr :
              cs.foldl (fun b x => if cmpParallel x b < 0 then x else b) c =
                cs.foldl (fun b x => if x.load < b.load then x else b) c := by
            have : (fun (b x : CQueue) => if cmpParallel x b < 0 then x else b) =
                fun (b x : CQueue) => if x.load < b.load then x else b := by
              funext b x
              exact cmpParallel_min b x
            rw [this]
          obtain ⟨l₁, l₂, hsplit, hpre, hpost⟩ :=
            foldFirstMin_split (fun p : CQueue => p.load) cs c
          rw [heqA, hsplit]
          refine ⟨l₁, l₂, by rw [hfold, hcongr], ?_, ?_⟩
          · intro p hp
            rw [hfold, hcongr]
            exact hpre p hp
          · intro p hp
            rw [hfold, hcongr]
            exact hpost p hp

/-- C7 witness: the two parallel queues, demanded `slow` before
`fast`; the lower-load `fast` is selected and indeed splits the
candidate list with the heavier `slow` strictly before it. -/
theorem C7_parallel_lowest_load_witness :
    cfgPar.cost = none ∧ cfgPar.queues ≠ [] ∧
    selectBestMatchingQueue [qParSlow, qParFast] cfgPar = .ok qParFast ∧
    ∃ l₁ l₂, allowedQueues [qParSlow, qParFast] cfgPar = l₁ ++ qParFast :: l₂ ∧
      (∀ p ∈ l₁, qParFast.load < p.load) ∧ (∀ p ∈ l₂, qParFast.load ≤ p.load) := by
  refine ⟨rfl, by decide, rfl, ?_⟩
  exact C7_parallel_lowest_load [qParSlow, qParFast] cfgPar qParFast rfl
    (by decide) rfl

/-- C2 counterexample: two firings of a single-instance task whose
admission checks both run before either job leaves its interruption
window.  Both checks see no queued or running job, both jobs are
submitted after their windows expire, and the task ends with two jobs
queued at once — the claimed bound of one fails. -/
theorem C2_window_overlap_counterexample :
    qrCount (admRun [.check 0, .check 0, .submit 0, .submit 0]) 0 = 2 := by
  decide

/-- Helper for C2: one admission step preserves the at-most-one bound
on a task's pending + queued + running jobs, provided a `check` of
that task only runs when no prior job of the task is pending
admission. -/
theorem admStep_totCount_le (t : ℕ) (s : AdmSt) (e : AdmEvt)
    (hle : totCount s t ≤ 1)
    (hchk : e = .check t → s.pending.count t = 0) :
    totCount (admStep s e) t ≤ 1 := by
  cases e with
  | check u =>
    by_cases hR : enqueuedOrRunning s u
    · simpa [admStep, hR] using hle
    · by_cases hu : u = t
      · subst hu
        have h0 : s.pending.count u = 0 := hchk rfl
        have hnm : ¬ u ∈ s.backlog ∧ ¬ u ∈ s.running := by
          unfold enqueuedOrRunning at hR
          simpa using hR
        have hb : s.backlog.count u = 0 := List.count_eq_zero.mpr hnm.1
        have hr : s.running.count u = 0 := List.count_eq_zero.mpr hnm.2
        simp [admStep, hR, totCount, qrCount, List.count_cons, h0, hb, hr]
      · have hc : (u :: s.pending).count t = s.pending.count t := by
          rw [List.count_cons]
          simp [hu]
        simp only [admStep, hR, if_false, Bool.false_eq_true, totCount, qrCount] at hle ⊢
        simpa [hc] using hle
  | submit u =>
    by_cases hP : u ∈ s.pending
    · have hpos : 1 ≤ s.pending.count u := List.count_pos_iff.mpr hP
      have he := List.count_erase t u s.pending
      have hc := List.count_cons t u s.backlog
      simp only [admStep, hP, if_true, totCount, qrCount] at hle ⊢
      by_cases hu : u = t
      · subst hu
        simp only [beq_self_eq_true, if_true] at he hc
        omega
      · simp only [beq_iff_eq, hu, if_false] at he hc
        omega
    · simpa [admStep, hP, totCount, qrCount] using hle
  | interrupt u =>
    have he := List.count_erase t u s.pending
    simp only [admStep, totCount, qrCount] at hle ⊢
    by_cases hu : u = t
    · subst hu
      simp only [beq_self_eq_true, if_true] at he
      omega
    · simp only [beq_iff_eq, hu, if_false] at he
      omega
  | start u =>
    by_cases hB : u ∈ s.backlog
    · have hpos : 1 ≤ s.backlog.count u := List.count_pos_iff.mpr hB
      have he := List.count_erase t u s.backlog
      have hc := List.count_cons t u s.running
      simp only [admStep, hB, if_true, totCount, qrCount] at hle ⊢
      by_cases hu : u = t
      · subst hu
        simp only [beq_self_eq_true, if_true] at he hc
        omega
      · simp only [beq_iff_eq, hu, if_false] at he hc
        omega
    · simpa [admStep, hB, totCount, qrCount] using hle
  | finish u =>
    have he := List.count_erase t u s.running
    simp only [admStep, totCount, qrCount] at hle ⊢
    by_cases hu : u = t
    · subst hu
      simp only [beq_self_eq_true, if_true] at he
      omega
    · simp only [beq_iff_eq, hu, if_false] at he
      omega

/-- Helper for C2: the bound carries over whole serialized traces. -/
theorem admRunFrom_totCount_le (t : ℕ) (evts : List AdmEvt) :
    ∀ (s : AdmSt), totCount s t ≤ 1 →
      checksSerialized t s evts = true →
      totCount (admRunFrom s evts) t ≤ 1 := by
  induction evts with
  | nil => intro s hle _; exact hle
  | cons e evts ih =>
    intro s hle hser
    simp only [checksSerialized, Bool.and_eq_true] at hser
    refine ih (admStep s e) (admStep_totCount_le t s e hle ?_) hser.2
    intro he
    have h1 := hser.1
    rw [if_pos he] at h1
    simpa using h1

/-- Helper for C2: serialization of checks restricts to prefixes. -/
theorem checksSerialized_of_append (t : ℕ) (p : List AdmEvt) :
    ∀ (q2 : List AdmEvt) (s : AdmSt),
      checksSerialized t s (p ++ q2) = true → checksSerialized t s p = true := by
  induction p with
  | nil => intro q2 s _; rfl
  | cons e p ih =>
    intro q2 s h
    simp only [List.cons_append, checksSerialized, Bool.and_eq_true] at h ⊢
    exact ⟨h.1, ih q2 (admStep s e) h.2⟩

/-- C2, amended: the admission guard excludes a second job of a
single-instance task only against jobs already queued or running at
check time.  On every trace in which no admission check of the task
runs while a prior job of it is still pending admission (inside its
interruption window), at most one job of the task is queued or running
at every moment; a check interleaved into another firing's window can
break the bound, as the counterexample shows. -/
theorem C2_serialized_checks_no_overlap (evts : List AdmEvt) (t : ℕ)
    (hser : checksSerialized t { pending := [], backlog := [], running := [] }
      evts = true)
    (p q2 : List AdmEvt) (hsplit : evts = p ++ q2) :
    qrCount (admRun p) t ≤ 1 := by
  subst hsplit
  have hp := checksSerialized_of_append t p q2 _ hser
  have htot := admRunFrom_totCount_le t p
    { pending := [], backlog := [], running := [] }
    (by simp [totCount, qrCount]) hp
  unfold totCount at htot
  unfold admRun
  omega

/-- C2 witness: a serialized trace — the second check runs only after
the first job was submitted, started and finished — keeps the
queued-or-running count at or below one. -/
theorem C2_serialized_checks_no_overlap_witness :
    checksSerialized 0 { pending := [], backlog := [], running := [] }
        [.check 0, .submit 0, .start 0, .finish 0, .check 0] = true ∧
    qrCount (admRun [.check 0, .submit 0, .start 0, .finish 0, .check 0]) 0 ≤ 1 := by
  refine ⟨by decide, ?_⟩
  exact C2_serialized_checks_no_overlap
    [.check 0, .submit 0, .start 0, .finish 0, .check 0] 0 (by decide)
    [.check 0, .submit 0, .start 0, .finish 0, .check 0] []
    (List.append_nil _).symm

end Cameleer
